import Mathlib

/-!
# RowProtocol (src/com/RowProtocol.cpp): value decoding of a result-row field

Shallow embedding of the member functions of `sql::mariadb::RowProtocol` defined in
`src/com/RowProtocol.cpp`, and theorems about them.

Conventions of the embedding
* Machine integers are `Nat`/`Int` with the wrap-around written out (`wrapInt64`, `wrapInt32`,
  `% 2 ^ 32`, `% 2 ^ 64`).
* A byte of a field (`sql::bytes`, an array of C++ `char`) is a raw octet `Fin 256`.  Whether
  `char` is a signed type is implementation-defined in C++ and is a parameter (`charSigned`)
  of the functions that read a byte; `true` is the x86/x86-64 convention.
* A `SQLString` is the list of its characters.  The width of `std::size_t`, 64 or 32 bits
  according to the target, is a parameter (`size64`) of the function that computes with it.
* Undefined behaviour (reading outside a field, dereferencing the null row pointer, a shift by
  64 or more) is the result `none`; a thrown `SQLException` is `Except.error`.
-/

namespace RowProtocol

/-! ## Machine arithmetic -/

/-- Two's-complement reduction of an integer to the range of `int64_t`. -/
def wrapInt64 (x : Int) : Int := (x + 2 ^ 63) % 2 ^ 64 - 2 ^ 63

/-- Two's-complement reduction of an integer to the range of `int32_t`. -/
def wrapInt32 (x : Int) : Int := (x + 2 ^ 31) % 2 ^ 32 - 2 ^ 31

/-- A raw octet of a field buffer. -/
abbrev Byte := Fin 256

/-- The value of an octet read through the C++ type `char`: the octet itself when `char` is
unsigned, its two's-complement reading (`-128 .. 127`) when `char` is signed. -/
def charValue (charSigned : Bool) (b : Byte) : Int :=
  if charSigned && decide (128 ≤ b.val) then (b.val : Int) - 256 else (b.val : Int)

/-! ## Decoder state -/

/-- The data members of `RowProtocol` that the functions of `RowProtocol.cpp` read or write.
`buf` is the pointer to the current row (`none` is `nullptr`, the value the constructor gives
it), `pos` the index of the current field in the row, `length` the `uint32_t` byte length of
the current field, `lastValueNull` the status flag. -/
structure State where
  maxFieldSize : Int
  buf : Option (List (List Byte))
  pos : Nat
  length : Nat
  lastValueNull : Int
  deriving DecidableEq, Repr

/-- The field `(*buf)[pos]`, when the row pointer is set and `pos` is inside the row. -/
def State.field (st : State) : Option (List Byte) :=
  match st.buf with
  | none => none
  | some row => row[st.pos]?

/-! ## parseBit -/

/-- The `do { ... } while (ind < length)` loop of `parseBit`, entered with the loop variables
`ind` and `val`.  One pass evaluates
`val += (static_cast<int64_t>(field[ind] & 0xff)) << (8 * (length - ++ind))`:
the byte is read at the old `ind`, `ind` is incremented, the shift count
`8 * (length - ind)` is computed in `uint32_t`, the shift and the addition in `int64_t`.
`ind < length < 2 ^ 32` (or `ind = 0`) holds at every pass, so `++ind` itself never wraps. -/
def parseBitLoop (charSigned : Bool) (field : List Byte) (length : Nat) (ind : Nat)
    (val : Int) : Option Int :=
  match field[ind]? with
  | none => none
  | some b =>
    let shift := (8 * ((length + 2 ^ 32 - (ind + 1)) % 2 ^ 32)) % 2 ^ 32
    if 64 ≤ shift then none
    else
      let val' := wrapInt64 (val + wrapInt64 ((charValue charSigned b % 256) * 2 ^ shift))
      if ind + 1 < length then parseBitLoop charSigned field length (ind + 1) val'
      else some val'
termination_by length - ind

/-- `RowProtocol::parseBit`: a field of length 1 is returned as the `char` `(*buf)[pos][0]`
converted to `int64_t`; any other field goes through the accumulation loop. -/
def parseBit (charSigned : Bool) (st : State) : Option Int :=
  match st.field with
  | none => none
  | some field =>
    if st.length = 1 then
      match field[0]? with
      | none => none
      | some b => some (charValue charSigned b)
    else parseBitLoop charSigned field st.length 0 0

/-! ## Strings and exceptions -/

/-- `sql::SQLString`, a wrapper of `std::string`: the sequence of its characters.  The only
operations on characters in this file are comparisons with `'0'` and `'9'` and the subtraction
of `'0'`, which give the same outcome whether `char` is signed or not. -/
abbrev SQLString := List Char

/-- `sql::SQLException` as thrown in this file: the message, and the SQL state and vendor
error code when the throw site passes them. -/
structure SQLException where
  message : SQLString
  sqlState : Option SQLString
  errorCode : Option Int
  deriving DecidableEq, Repr

/-- `std::string::find_first_of(c)`: the index of the first occurrence of `c`, `none` for
`std::string::npos`. -/
def find_first_of : SQLString → Char → Option Nat
  | [], _ => none
  | x :: xs, c => if x = c then some 0 else (find_first_of xs c).map (· + 1)

/-! ## extractNanos -/

/-- The exception thrown by `extractNanos` on a character that is not a digit. -/
def subSecondParseError (timestring : SQLString) : SQLException :=
  { message := "cannot parse sub-second part in timestamp string '".toList ++ timestring
      ++ "'".toList
    sqlState := none
    errorCode := none }

/-- The `for (size_t i = index + 1; i < index + 10; i++)` loop of `extractNanos`, entered with
the loop variable `i` and the accumulator `nanos`; the accumulation
`nanos = nanos * 10 + digit` is done in `int32_t`. -/
def extractNanosLoop (timestring : SQLString) (index : Nat) (i : Nat) (nanos : Int) :
    Except SQLException Int :=
  if i < index + 10 then
    if h : timestring.length ≤ i then
      extractNanosLoop timestring index (i + 1) (wrapInt32 (nanos * 10 + 0))
    else
      let value := timestring[i]
      if value < '0' ∨ value > '9' then
        Except.error (subSecondParseError timestring)
      else
        extractNanosLoop timestring index (i + 1)
          (wrapInt32 (nanos * 10 + ((value.toNat : Int) - ('0'.toNat : Int))))
  else Except.ok nanos
termination_by index + 10 - i

/-- `RowProtocol::extractNanos`. -/
def extractNanos (timestring : SQLString) : Except SQLException Int :=
  match find_first_of timestring '.' with
  | none => Except.ok 0
  | some index => extractNanosLoop timestring index (index + 1) 0

/-! ## zeroFillingIfNeeded -/

/-- The part of `ColumnDefinition` read in this file: `getName()`, `isZeroFill()` and
`getDisplaySize()` (a `uint32_t`). -/
structure ColumnDefinition where
  name : SQLString
  zeroFill : Bool
  displaySize : Nat
  deriving DecidableEq, Repr

/-- The `while ((zeroToAdd--) > 0) zeroAppendStr.append("0")` loop.  The decrement of a
positive `int64_t` does not overflow; the value left in `zeroToAdd` by the last, failing test
is not used. -/
def zeroFillLoop (zeroToAdd : Int) (zeroAppendStr : SQLString) : SQLString :=
  if 0 < zeroToAdd then zeroFillLoop (zeroToAdd - 1) (zeroAppendStr ++ "0".toList)
  else zeroAppendStr
termination_by zeroToAdd.toNat
decreasing_by omega

/-- The number of values of `std::size_t`: `2 ^ 64` on a target with a 64-bit `size_t`,
`2 ^ 32` on a target with a 32-bit one. -/
def sizeModulus (size64 : Bool) : Int := if size64 then 2 ^ 64 else 2 ^ 32

/-- `RowProtocol::zeroFillingIfNeeded`.  The difference
`columnInformation->getDisplaySize() - value.size()` of a `uint32_t` and a `std::size_t` is
computed in the unsigned type `std::size_t`, so it wraps modulo `sizeModulus`, and is then
converted to the `int64_t` variable `zeroToAdd`. -/
def zeroFillingIfNeeded (size64 : Bool) (value : SQLString)
    (columnInformation : ColumnDefinition) : SQLString :=
  if columnInformation.zeroFill then
    let zeroToAdd : Int :=
      wrapInt64 (((columnInformation.displaySize : Int) - (value.length : Int))
        % sizeModulus size64)
    zeroFillLoop zeroToAdd [] ++ value
  else value

/-! ## rangeCheck -/

/-- `std::to_string` of an `int64_t`: the decimal digits, after a `-` for a negative value. -/
def to_string (value : Int) : SQLString := (toString value).toList

/-- The exception thrown by the integer `rangeCheck`. -/
def outOfRangeError (className : SQLString) (value : Int) (columnInfo : ColumnDefinition) :
    SQLException :=
  { message := "Out of range value for column '".toList ++ columnInfo.name
      ++ "' : value ".toList ++ to_string value ++ " is not in ".toList ++ className
      ++ " range".toList
    sqlState := some "22003".toList
    errorCode := some 1264 }

/-- `RowProtocol::rangeCheck` for an `int64_t` value (the `BigDecimal` overload is compiled
out). -/
def rangeCheck (className : SQLString) (minValue maxValue value : Int)
    (columnInfo : ColumnDefinition) : Except SQLException Unit :=
  if value < minValue ∨ value > maxValue then
    Except.error (outOfRangeError className value columnInfo)
  else Except.ok ()

/-! ## Row buffer, field length and status flag -/

/-- `RowProtocol::BIT_LAST_FIELD_NOT_NULL`, `0b000000`. -/
def BIT_LAST_FIELD_NOT_NULL : Int := 0

/-- `RowProtocol::BIT_LAST_FIELD_NULL`, `0b000001`. -/
def BIT_LAST_FIELD_NULL : Int := 1

/-- `RowProtocol::BIT_LAST_ZERO_DATE`, `0b000010`. -/
def BIT_LAST_ZERO_DATE : Int := 2

/-- The bit pattern of `a & b` for two `int32_t` operands, as an unsigned 32-bit number;
`(a & b) != 0` holds exactly when this pattern is not 0. -/
def bitAnd32 (a b : Int) : Nat := (a % 2 ^ 32).toNat &&& (b % 2 ^ 32).toNat

/-- `RowProtocol::resetRow`: the row pointer is set to the given row, nothing else is
assigned. -/
def resetRow (st : State) (_buf : List (List Byte)) : State :=
  { st with buf := some _buf }

/-- `RowProtocol::getLengthMaxFieldSize`:
`maxFieldSize != 0 && maxFieldSize < length ? maxFieldSize : length`.  `maxFieldSize` is an
`int32_t` and `length` a `uint32_t`, so the comparison and the result are taken in
`uint32_t`, after conversion of `maxFieldSize`. -/
def getLengthMaxFieldSize (st : State) : Nat :=
  if st.maxFieldSize ≠ 0 ∧ (st.maxFieldSize % 2 ^ 32).toNat < st.length then
    (st.maxFieldSize % 2 ^ 32).toNat
  else st.length

/-- `RowProtocol::getMaxFieldSize`: `maxFieldSize` converted to the `uint32_t` result. -/
def getMaxFieldSize (st : State) : Nat := (st.maxFieldSize % 2 ^ 32).toNat

/-- `RowProtocol::lastValueWasNull`: `(lastValueNull & BIT_LAST_FIELD_NULL) != 0`. -/
def lastValueWasNull (st : State) : Bool :=
  decide (bitAnd32 st.lastValueNull BIT_LAST_FIELD_NULL ≠ 0)

/-- `RowProtocol::wasNull`:
`(lastValueNull & BIT_LAST_FIELD_NULL) != 0 || (lastValueNull & BIT_LAST_ZERO_DATE) != 0`. -/
def wasNull (st : State) : Bool :=
  decide (bitAnd32 st.lastValueNull BIT_LAST_FIELD_NULL ≠ 0)
    || decide (bitAnd32 st.lastValueNull BIT_LAST_ZERO_DATE ≠ 0)

/-! ## Width-specific integer getters -/

/-- The outcome of an integer getter: the `int32_t` value or the exception thrown, and the
decoder state it leaves. -/
abbrev IntResult := Except SQLException Int × State

/-- `RowProtocol::getInternalTinyInt`: `return getInternalInt(columnInfo);`.  The virtual
`getInternalInt` is defined by the subclasses of `RowProtocol` and is a parameter here. -/
def getInternalTinyInt (getInternalInt : State → ColumnDefinition → IntResult) (st : State)
    (columnInfo : ColumnDefinition) : IntResult :=
  getInternalInt st columnInfo

/-- `RowProtocol::getInternalSmallInt`: `return getInternalInt(columnInfo);`. -/
def getInternalSmallInt (getInternalInt : State → ColumnDefinition → IntResult) (st : State)
    (columnInfo : ColumnDefinition) : IntResult :=
  getInternalInt st columnInfo

/-- `RowProtocol::getInternalMediumInt`: `return getInternalInt(columnInfo);`. -/
def getInternalMediumInt (getInternalInt : State → ColumnDefinition → IntResult) (st : State)
    (columnInfo : ColumnDefinition) : IntResult :=
  getInternalInt st columnInfo

/-! ## Classification patterns -/

/-- A single-character element of a pattern: a literal character or the class `\d`. -/
inductive Atom where
  | lit (c : Char)
  | digit
  deriving DecidableEq, Repr

/-- Whether a character is matched by an atom; `\d` matches `'0'` to `'9'`. -/
def Atom.accepts : Atom → Char → Bool
  | Atom.lit c, x => decide (x = c)
  | Atom.digit, x => decide ('0' ≤ x ∧ x ≤ '9')

/-- An element of a pattern: an atom, or an atom followed by `?`. -/
inductive Item where
  | one (a : Atom)
  | opt (a : Atom)
  deriving DecidableEq, Repr

/-- The pattern `a{n}`: `n` copies of the atom. -/
def times (n : Nat) (a : Atom) : List Item := List.replicate n (Item.one a)

/-- Whether some prefix of the text has the shape of the pattern: the pattern is anchored at
the start of the text by `^` and is not anchored at the end. -/
def matchesPrefix : List Item → List Char → Bool
  | [], _ => true
  | Item.one _ :: _, [] => false
  | Item.one a :: p, x :: s => a.accepts x && matchesPrefix p s
  | Item.opt _ :: p, [] => matchesPrefix p []
  | Item.opt a :: p, x :: s => (a.accepts x && matchesPrefix p s) || matchesPrefix p (x :: s)

/-- `RowProtocol::dateRegex`, the pattern `^-?\d{4}-\d{2}-\d{2}`. -/
def dateRegex : List Item :=
  [Item.opt (Atom.lit '-')] ++ times 4 Atom.digit ++ [Item.one (Atom.lit '-')]
    ++ times 2 Atom.digit ++ [Item.one (Atom.lit '-')] ++ times 2 Atom.digit

/-- `RowProtocol::timestampRegex`, the pattern
`^-?\d{4}-\d{2}-\d{2} \d{2}:\d{2}:\d{2}\.?`. -/
def timestampRegex : List Item :=
  [Item.opt (Atom.lit '-')] ++ times 4 Atom.digit ++ [Item.one (Atom.lit '-')]
    ++ times 2 Atom.digit ++ [Item.one (Atom.lit '-')] ++ times 2 Atom.digit
    ++ [Item.one (Atom.lit ' ')] ++ times 2 Atom.digit ++ [Item.one (Atom.lit ':')]
    ++ times 2 Atom.digit ++ [Item.one (Atom.lit ':')] ++ times 2 Atom.digit
    ++ [Item.opt (Atom.lit '.')]

/-! ## Definitions used to state and prove the theorems -/

/-- The unsigned big-endian integer of a field, in the words of the specification: the sum
over `i` in `0 .. n-1` of `u(b[i]) * 2 ^ (8 * (n - 1 - i))`, `u` the unsigned value of a
byte. -/
def bigEndianValue (field : List Byte) : Nat :=
  ∑ i in Finset.range field.length, (field.getD i 0).val * 2 ^ (8 * (field.length - 1 - i))

/-- The part of the big-endian sum contributed by the bytes at index `ind` and after. -/
def bigEndianTail (field : List Byte) (ind : Nat) : Int :=
  ∑ i in Finset.Ico ind field.length,
    ((field.getD i 0).val : Int) * 2 ^ (8 * (field.length - 1 - i))

/-- The decimal value of a sequence of digit characters, read left to right from the running
value `acc`. -/
def decimalFrom (acc : Nat) (digits : List Char) : Nat :=
  digits.foldl (fun a c => 10 * a + (c.toNat - '0'.toNat)) acc

/-- The decimal value of a sequence of digit characters. -/
def decimalValue (digits : List Char) : Nat := decimalFrom 0 digits

/-- The loop of `extractNanos` seen from the characters that follow the current index: `k`
passes remain, `rest` are the characters of the string from the current index on, `err` is
the exception of a non-digit. -/
def nanosWindow (err : SQLException) : Nat → List Char → Int → Except SQLException Int
  | 0, _, nanos => Except.ok nanos
  | k + 1, [], nanos => nanosWindow err k [] (wrapInt32 (nanos * 10 + 0))
  | k + 1, value :: rest, nanos =>
    if value < '0' ∨ value > '9' then Except.error err
    else nanosWindow err k rest
      (wrapInt32 (nanos * 10 + ((value.toNat : Int) - ('0'.toNat : Int))))

/-- The failure condition of `extractNanos` in the words of the specification: the text
contains a `'.'` and, `p` being the index of the first one, some index `i` with
`p < i ≤ p + 9` inside the text holds a character that is not an ASCII digit. -/
def MalformedFraction (text : SQLString) : Prop :=
  ∃ p, (text[p]? = some '.' ∧ ∀ j < p, text[j]? ≠ some '.')
    ∧ ∃ i, p < i ∧ i ≤ p + 9 ∧ ∃ c, text[i]? = some c ∧ ¬ ('0' ≤ c ∧ c ≤ '9')

/-- The loop of `extractNanos` with the accumulation `nanos * 10 + digit` done in the
integers, without reduction to `int32_t`. -/
def nanosExact (err : SQLException) : Nat → List Char → Int → Except SQLException Int
  | 0, _, nanos => Except.ok nanos
  | k + 1, [], nanos => nanosExact err k [] (nanos * 10 + 0)
  | k + 1, value :: rest, nanos =>
    if value < '0' ∨ value > '9' then Except.error err
    else nanosExact err k rest (nanos * 10 + ((value.toNat : Int) - ('0'.toNat : Int)))

/-- The function `extractNanos` with the accumulation done in the integers: the exact
mathematical value of the nine-character window. -/
def extractNanosExact (timestring : SQLString) : Except SQLException Int :=
  match find_first_of timestring '.' with
  | none => Except.ok 0
  | some index =>
    nanosExact (subSecondParseError timestring) 9 (timestring.drop (index + 1)) 0

/-! ## Lemmas on machine arithmetic -/

theorem wrapInt64_add_wrapInt64 (a b : Int) :
    wrapInt64 (a + wrapInt64 b) = wrapInt64 (a + b) := by
  simp only [wrapInt64]; omega

theorem wrapInt64_wrapInt64_add (a b : Int) :
    wrapInt64 (wrapInt64 a + b) = wrapInt64 (a + b) := by
  simp only [wrapInt64]; omega

theorem wrapInt64_of_range (x : Int) (h0 : -2 ^ 63 ≤ x) (h1 : x < 2 ^ 63) :
    wrapInt64 x = x := by
  simp only [wrapInt64]; omega

theorem charValue_and_0xff (charSigned : Bool) (b : Byte) :
    charValue charSigned b % 256 = (b.val : Int) := by
  have hb := b.isLt
  unfold charValue
  split <;> omega

/-! ## Lemmas on parseBit -/

theorem bigEndianTail_step (field : List Byte) (ind : Nat) (h : ind < field.length) :
    bigEndianTail field ind
      = ((field.getD ind 0).val : Int) * 2 ^ (8 * (field.length - 1 - ind))
        + bigEndianTail field (ind + 1) := by
  unfold bigEndianTail
  rw [Finset.sum_eq_sum_Ico_succ_bot h]

theorem bigEndianTail_zero (field : List Byte) :
    bigEndianTail field 0 = (bigEndianValue field : Int) := by
  unfold bigEndianTail bigEndianValue
  rw [← Finset.range_eq_Ico]
  push_cast
  rfl

theorem bigEndianTail_length (field : List Byte) :
    bigEndianTail field field.length = 0 := by
  simp [bigEndianTail]

/-- The accumulation loop on a field of at most 8 bytes whose recorded length is its real
length: it returns the running value plus the big-endian value of the bytes still to read,
reduced to `int64_t`. -/
theorem parseBitLoop_eq (charSigned : Bool) (field : List Byte) (k : Nat) :
    ∀ (ind : Nat) (val : Int), field.length ≤ 8 → ind < field.length →
      field.length - ind = k →
      parseBitLoop charSigned field field.length ind val
        = some (wrapInt64 (val + bigEndianTail field ind)) := by
  induction k with
  | zero => intro ind val _ h1 h2; omega
  | succ k ih =>
    intro ind val h8 hind hk
    rw [parseBitLoop]
    have hget : field[ind]? = some (field.getD ind 0) := by
      rw [List.getD_eq_getElem?_getD, List.getElem?_eq_getElem hind]; rfl
    rw [hget]
    have hshift : (8 * ((field.length + 2 ^ 32 - (ind + 1)) % 2 ^ 32)) % 2 ^ 32
        = 8 * (field.length - 1 - ind) := by omega
    simp only [hshift, charValue_and_0xff]
    have hlt : ¬ 64 ≤ 8 * (field.length - 1 - ind) := by omega
    rw [if_neg hlt, bigEndianTail_step field ind hind, wrapInt64_add_wrapInt64]
    by_cases hnext : ind + 1 < field.length
    · rw [if_pos hnext, ih (ind + 1) _ h8 hnext (by omega), wrapInt64_wrapInt64_add, add_assoc]
    · rw [if_neg hnext]
      have : ind + 1 = field.length := by omega
      rw [this, bigEndianTail_length, add_zero]

theorem bigEndianTail_bounds (field : List Byte) (k : Nat) :
    ∀ ind : Nat, ind ≤ field.length → field.length - ind = k →
      0 ≤ bigEndianTail field ind ∧ bigEndianTail field ind < 2 ^ (8 * k) := by
  induction k with
  | zero =>
    intro ind h1 h2
    have : ind = field.length := by omega
    subst this
    simp [bigEndianTail_length]
  | succ k ih =>
    intro ind h1 h2
    have hind : ind < field.length := by omega
    have hk : field.length - 1 - ind = k := by omega
    obtain ⟨h0, hlt⟩ := ih (ind + 1) hind (by omega)
    rw [bigEndianTail_step field ind hind, hk]
    have hb : ((field.getD ind 0).val : Int) < 256 := by exact_mod_cast (field.getD ind 0).isLt
    have hb0 : (0 : Int) ≤ ((field.getD ind 0).val : Int) := by positivity
    have hp : (0 : Int) < 2 ^ (8 * k) := by positivity
    have hpow : (2 : Int) ^ (8 * (k + 1)) = 256 * 2 ^ (8 * k) := by
      rw [Nat.mul_succ, pow_add]; norm_num; ring
    rw [hpow]
    constructor
    · positivity
    · nlinarith

theorem parseBit_loop_value (charSigned : Bool) (st : State) (field : List Byte)
    (hfield : st.field = some field) (hlen : st.length = field.length)
    (h2 : 2 ≤ field.length) (h8 : field.length ≤ 8) :
    parseBit charSigned st = some (wrapInt64 (bigEndianValue field)) := by
  unfold parseBit
  rw [hfield]
  simp only
  rw [if_neg (by omega), hlen,
    parseBitLoop_eq charSigned field field.length 0 0 h8 (by omega) rfl, zero_add,
    bigEndianTail_zero]

/-! ## Lemmas on extractNanos -/

theorem wrapInt32_of_range (x : Int) (h0 : -2 ^ 31 ≤ x) (h1 : x < 2 ^ 31) :
    wrapInt32 x = x := by
  simp only [wrapInt32]; omega

theorem char_lt_zero_iff (c : Char) : c < '0' ↔ c.toNat < 48 := by
  rw [Char.lt_def]; rfl

theorem char_gt_nine_iff (c : Char) : c > '9' ↔ 57 < c.toNat := by
  show '9' < c ↔ _
  rw [Char.lt_def]; rfl

theorem char_zero_le_iff (c : Char) : '0' ≤ c ↔ 48 ≤ c.toNat := by
  rw [Char.le_def]; rfl

theorem char_le_nine_iff (c : Char) : c ≤ '9' ↔ c.toNat ≤ 57 := by
  rw [Char.le_def]; rfl

theorem not_digit_iff (c : Char) : (c < '0' ∨ c > '9') ↔ ¬ ('0' ≤ c ∧ c ≤ '9') := by
  rw [char_lt_zero_iff, char_gt_nine_iff, char_zero_le_iff, char_le_nine_iff]; omega

theorem find_first_of_eq_none (s : SQLString) (c : Char) (h : c ∉ s) :
    find_first_of s c = none := by
  induction s with
  | nil => rfl
  | cons x xs ih =>
    have hx : ¬ x = c := fun e => h (by simp [e])
    have hxs : c ∉ xs := fun e => h (by simp [e])
    simp [find_first_of, hx, ih hxs]

theorem find_first_of_append (pre rest : SQLString) (c : Char) (h : c ∉ pre) :
    find_first_of (pre ++ c :: rest) c = some pre.length := by
  induction pre with
  | nil => simp [find_first_of]
  | cons x xs ih =>
    have hx : ¬ x = c := fun e => h (by simp [e])
    have hxs : c ∉ xs := fun e => h (by simp [e])
    simp [find_first_of, hx, ih hxs]

/-- The value returned by `find_first_of` is the index of the first occurrence. -/
theorem find_first_of_eq_some_iff (s : SQLString) (c : Char) :
    ∀ p : Nat, find_first_of s c = some p ↔ (s[p]? = some c ∧ ∀ j < p, s[j]? ≠ some c) := by
  induction s with
  | nil => intro p; simp [find_first_of]
  | cons x xs ih =>
    intro p
    by_cases hx : x = c
    · subst hx
      simp only [find_first_of, if_true]
      constructor
      · intro h
        have : p = 0 := by simpa using h.symm
        subst this
        simp
      · rintro ⟨_, h2⟩
        cases p with
        | zero => rfl
        | succ p => exact absurd (by simp) (h2 0 (by omega))
    · simp only [find_first_of, if_neg hx]
      cases p with
      | zero =>
        simp only [Option.map_eq_some', List.getElem?_cons_zero, Option.some.injEq]
        constructor
        · rintro ⟨a, _, ha⟩; omega
        · rintro ⟨h, _⟩; exact absurd h hx
      | succ p =>
        simp only [Option.map_eq_some', Nat.add_right_cancel_iff, exists_eq_right,
          List.getElem?_cons_succ]
        rw [ih p]
        constructor
        · rintro ⟨h1, h2⟩
          refine ⟨h1, fun j hj => ?_⟩
          cases j with
          | zero => simpa using hx
          | succ j => simpa using h2 j (by omega)
        · rintro ⟨h1, h2⟩
          refine ⟨h1, fun j hj => ?_⟩
          simpa using h2 (j + 1) (by omega)

/-- The loop of `extractNanos` is the window function applied to the characters from the
current index on. -/
theorem extractNanosLoop_eq_window (s : SQLString) (index : Nat) (k : Nat) :
    ∀ (i : Nat) (nanos : Int), index + 10 - i = k →
      extractNanosLoop s index i nanos
        = nanosWindow (subSecondParseError s) k (s.drop i) nanos := by
  induction k with
  | zero =>
    intro i nanos hk
    rw [extractNanosLoop, if_neg (by omega)]
    rfl
  | succ k ih =>
    intro i nanos hk
    rw [extractNanosLoop, if_pos (by omega)]
    by_cases h : s.length ≤ i
    · rw [dif_pos h, ih (i + 1) _ (by omega), List.drop_eq_nil_of_le h,
        List.drop_eq_nil_of_le (by omega)]
      rfl
    · rw [dif_neg h]
      have hi : i < s.length := by omega
      rw [List.drop_eq_getElem_cons hi]
      simp only [nanosWindow]
      split
      · rfl
      · exact ih (i + 1) _ (by omega)

theorem extractNanos_of_find (s : SQLString) (p : Nat) (h : find_first_of s '.' = some p) :
    extractNanos s = nanosWindow (subSecondParseError s) 9 (s.drop (p + 1)) 0 := by
  unfold extractNanos
  rw [h]
  exact extractNanosLoop_eq_window s p 9 (p + 1) 0 (by omega)

theorem extractNanos_dot (pre rest : SQLString) (h : '.' ∉ pre) :
    extractNanos (pre ++ '.' :: rest)
      = nanosWindow (subSecondParseError (pre ++ '.' :: rest)) 9 rest 0 := by
  rw [extractNanos_of_find _ pre.length (find_first_of_append pre rest '.' h)]
  congr 1
  simp

theorem digit_toNat (c : Char) (h : '0' ≤ c ∧ c ≤ '9') :
    48 ≤ c.toNat ∧ c.toNat ≤ 57 := by
  rw [char_zero_le_iff, char_le_nine_iff] at h; exact h

/-- Padding: with no character left, `k` passes multiply the accumulator by `10 ^ k`. -/
theorem nanosWindow_nil (err : SQLException) (k : Nat) :
    ∀ n : Nat, (n + 1) * 10 ^ k ≤ 2 ^ 31 →
      nanosWindow err k [] (n : Int) = Except.ok ((n * 10 ^ k : Nat) : Int) := by
  induction k with
  | zero => intro n _; simp [nanosWindow]
  | succ k ih =>
    intro n hn
    have hpow : 10 ^ (k + 1) = 10 * 10 ^ k := by rw [pow_succ, mul_comm]
    rw [hpow] at hn
    have hpos : 1 ≤ 10 ^ k := Nat.one_le_pow _ _ (by norm_num)
    have h1 : (n * 10 + 1) * 10 ^ k ≤ 2 ^ 31 := by
      calc (n * 10 + 1) * 10 ^ k ≤ (n * 10 + 10) * 10 ^ k :=
            Nat.mul_le_mul_right _ (by omega)
        _ = (n + 1) * (10 * 10 ^ k) := by ring
        _ ≤ 2 ^ 31 := hn
    have h2 : n * 10 + 1 ≤ 2 ^ 31 := by
      calc n * 10 + 1 = (n * 10 + 1) * 1 := by ring
        _ ≤ (n * 10 + 1) * 10 ^ k := Nat.mul_le_mul_left _ hpos
        _ ≤ 2 ^ 31 := h1
    have hw : wrapInt32 ((n : Int) * 10 + 0) = ((n * 10 : Nat) : Int) := by
      rw [wrapInt32_of_range _ (by omega) (by push_cast at h2 ⊢; omega)]
      push_cast; ring
    have he : n * 10 * 10 ^ k = n * (10 * 10 ^ k) := by ring
    rw [nanosWindow, hw, ih (n * 10) h1, hpow, he]

/-- Digits: a run of digit characters is accumulated as its decimal value. -/
theorem nanosWindow_digits (err : SQLException) (digits : List Char) :
    ∀ (k n : Nat) (rest : List Char), (∀ c ∈ digits, '0' ≤ c ∧ c ≤ '9') →
      (n + 1) * 10 ^ (digits.length + k) ≤ 2 ^ 31 →
      nanosWindow err (digits.length + k) (digits ++ rest) (n : Int)
        = nanosWindow err k rest ((decimalFrom n digits : Nat) : Int) := by
  induction digits with
  | nil => intro k n rest _ _; simp [decimalFrom]
  | cons c cs ih =>
    intro k n rest hd hn
    obtain ⟨hc0, hc9⟩ := digit_toNat c (hd c (by simp))
    have hcs : ∀ x ∈ cs, '0' ≤ x ∧ x ≤ '9' := fun x hx => hd x (by simp [hx])
    have hlen : (c :: cs).length + k = (cs.length + k) + 1 := by simp; omega
    rw [hlen] at hn ⊢
    have hpow : 10 ^ (cs.length + k + 1) = 10 * 10 ^ (cs.length + k) := by
      rw [pow_succ, mul_comm]
    rw [hpow] at hn
    have hpos : 1 ≤ 10 ^ (cs.length + k) := Nat.one_le_pow _ _ (by norm_num)
    have h1 : (10 * n + (c.toNat - '0'.toNat) + 1) * 10 ^ (cs.length + k) ≤ 2 ^ 31 := by
      have h48 : '0'.toNat = 48 := rfl
      calc (10 * n + (c.toNat - '0'.toNat) + 1) * 10 ^ (cs.length + k)
          ≤ (10 * n + 10) * 10 ^ (cs.length + k) :=
            Nat.mul_le_mul_right _ (by omega)
        _ = (n + 1) * (10 * 10 ^ (cs.length + k)) := by ring
        _ ≤ 2 ^ 31 := hn
    have h2 : 10 * n + (c.toNat - '0'.toNat) + 1 ≤ 2 ^ 31 := by
      calc 10 * n + (c.toNat - '0'.toNat) + 1
          = (10 * n + (c.toNat - '0'.toNat) + 1) * 1 := by ring
        _ ≤ (10 * n + (c.toNat - '0'.toNat) + 1) * 10 ^ (cs.length + k) :=
            Nat.mul_le_mul_left _ hpos
        _ ≤ 2 ^ 31 := h1
    have hnd : ¬ (c < '0' ∨ c > '9') := by
      rw [not_digit_iff]; exact not_not.mpr (hd c (by simp))
    have h48 : '0'.toNat = 48 := rfl
    have hw : wrapInt32 ((n : Int) * 10 + ((c.toNat : Int) - ('0'.toNat : Int)))
        = ((10 * n + (c.toNat - '0'.toNat) : Nat) : Int) := by
      rw [h48] at h2 ⊢
      rw [wrapInt32_of_range _ (by omega) (by omega)]
      omega
    rw [List.cons_append, nanosWindow, if_neg hnd, hw]
    exact ih k _ rest hcs h1

theorem decimalFrom_lt (digits : List Char) :
    ∀ n : Nat, (∀ c ∈ digits, '0' ≤ c ∧ c ≤ '9') →
      decimalFrom n digits + 1 ≤ (n + 1) * 10 ^ digits.length := by
  induction digits with
  | nil => intro n _; simp [decimalFrom]
  | cons c cs ih =>
    intro n hd
    obtain ⟨hc0, hc9⟩ := digit_toNat c (hd c (by simp))
    have hcs : ∀ x ∈ cs, '0' ≤ x ∧ x ≤ '9' := fun x hx => hd x (by simp [hx])
    have h48 : '0'.toNat = 48 := rfl
    have hstep : decimalFrom n (c :: cs) = decimalFrom (10 * n + (c.toNat - '0'.toNat)) cs := rfl
    rw [hstep]
    calc decimalFrom (10 * n + (c.toNat - '0'.toNat)) cs + 1
        ≤ (10 * n + (c.toNat - '0'.toNat) + 1) * 10 ^ cs.length := ih _ hcs
      _ ≤ (10 * n + 10) * 10 ^ cs.length := Nat.mul_le_mul_right _ (by omega)
      _ = (n + 1) * 10 ^ (c :: cs).length := by rw [List.length_cons, pow_succ]; ring

/-- A non-digit among the first `k` characters is the only way the window fails. -/
theorem nanosWindow_error_iff (err : SQLException) (k : Nat) :
    ∀ (rest : List Char) (nanos : Int),
      (∃ e, nanosWindow err k rest nanos = Except.error e)
        ↔ ∃ j < k, ∃ c, rest[j]? = some c ∧ ¬ ('0' ≤ c ∧ c ≤ '9') := by
  induction k with
  | zero => intro rest nanos; simp [nanosWindow]
  | succ k ih =>
    intro rest nanos
    cases rest with
    | nil =>
      simp only [nanosWindow]
      rw [ih]
      simp
    | cons c cs =>
      simp only [nanosWindow]
      by_cases hc : c < '0' ∨ c > '9'
      · rw [if_pos hc]
        constructor
        · intro _
          exact ⟨0, by omega, c, by simp, (not_digit_iff c).mp hc⟩
        · intro _; exact ⟨err, rfl⟩
      · rw [if_neg hc, ih]
        have hdig : '0' ≤ c ∧ c ≤ '9' := by
          by_contra hcon; exact hc ((not_digit_iff c).mpr hcon)
        constructor
        · rintro ⟨j, hj, x, hx, hnx⟩
          exact ⟨j + 1, by omega, x, by simpa using hx, hnx⟩
        · rintro ⟨j, hj, x, hx, hnx⟩
          cases j with
          | zero =>
            simp only [List.getElem?_cons_zero, Option.some.injEq] at hx
            subst hx
            exact absurd hdig hnx
          | succ j => exact ⟨j, by omega, x, by simpa using hx, hnx⟩

theorem nanosWindow_error_eq (err : SQLException) (k : Nat) :
    ∀ (rest : List Char) (nanos : Int) (e : SQLException),
      nanosWindow err k rest nanos = Except.error e → e = err := by
  induction k with
  | zero => intro rest nanos e h; simp [nanosWindow] at h
  | succ k ih =>
    intro rest nanos e h
    cases rest with
    | nil => exact ih _ _ e (by simpa [nanosWindow] using h)
    | cons c cs =>
      simp only [nanosWindow] at h
      split at h
      · injection h with h; exact h.symm
      · exact ih _ _ e h

/-! ## Lemmas on zeroFillingIfNeeded -/

theorem zeroFillLoop_nonpos (zeroToAdd : Int) (acc : SQLString) (h : zeroToAdd ≤ 0) :
    zeroFillLoop zeroToAdd acc = acc := by
  rw [zeroFillLoop, if_neg (by omega)]

/-- Entered with a non-negative count, the padding loop appends that many `'0'`. -/
theorem zeroFillLoop_nat (n : Nat) :
    ∀ acc : SQLString, zeroFillLoop (n : Int) acc = acc ++ List.replicate n '0' := by
  induction n with
  | zero => intro acc; rw [zeroFillLoop_nonpos _ _ (by simp)]; simp
  | succ n ih =>
    intro acc
    rw [zeroFillLoop, if_pos (by omega)]
    have hz : ((n + 1 : Nat) : Int) - 1 = (n : Int) := by omega
    rw [hz, ih, List.replicate_succ, List.append_assoc]
    rfl

/-- On a zero-fill column, the result is the value after as many `'0'` as the converted
difference says, when that number is not negative. -/
theorem zeroFillingIfNeeded_of_count (size64 : Bool) (value : SQLString)
    (col : ColumnDefinition) (n : Nat) (hzero : col.zeroFill = true)
    (hn : wrapInt64 (((col.displaySize : Int) - (value.length : Int)) % sizeModulus size64)
      = (n : Int)) :
    zeroFillingIfNeeded size64 value col = List.replicate n '0' ++ value := by
  unfold zeroFillingIfNeeded
  rw [if_pos hzero]
  dsimp only
  rw [hn, zeroFillLoop_nat, List.nil_append]

/-- The value is returned unchanged when the column is not zero-fill, and, with a 64-bit
`size_t`, when it is zero-fill and the value (shorter than `2 ^ 63` characters) is at least
as long as the display size. -/
theorem zeroFillingIfNeeded_unchanged (size64 : Bool) (value : SQLString)
    (col : ColumnDefinition)
    (h : col.zeroFill = false
      ∨ (size64 = true ∧ col.displaySize ≤ value.length ∧ value.length < 2 ^ 63)) :
    zeroFillingIfNeeded size64 value col = value := by
  unfold zeroFillingIfNeeded
  cases hz : col.zeroFill with
  | false => rw [if_neg (by simp)]
  | true =>
    rcases h with h | ⟨h64, h1, h2⟩
    · rw [hz] at h; cases h
    · subst h64
      have hle : wrapInt64 (((col.displaySize : Int) - (value.length : Int))
          % sizeModulus true) ≤ 0 := by
        unfold wrapInt64 sizeModulus
        rw [if_pos rfl]
        omega
      rw [if_pos rfl]
      dsimp only
      rw [zeroFillLoop_nonpos _ _ hle, List.nil_append]

/-! ## Theorems of the claims -/

/-- C1: on a field of `n` bytes with `2 ≤ n ≤ 7` (the recorded length being the length of the
field), `parseBit` returns exactly the unsigned big-endian integer of the bytes, the sum over
`i` of `u(b[i]) * 2 ^ (8 * (n - 1 - i))`, whichever the signedness of `char`. -/
theorem parseBit_bigEndian (charSigned : Bool) (st : State) (field : List Byte)
    (hfield : st.field = some field) (hlen : st.length = field.length)
    (h2 : 2 ≤ field.length) (h7 : field.length ≤ 7) :
    parseBit charSigned st = some (bigEndianValue field : Int) := by
  rw [parseBit_loop_value charSigned st field hfield hlen h2 (by omega)]
  obtain ⟨h0, hlt⟩ := bigEndianTail_bounds field field.length 0 (by omega) rfl
  rw [bigEndianTail_zero] at h0 hlt
  have hpow : (2 : Int) ^ (8 * field.length) ≤ 2 ^ 56 :=
    pow_le_pow_right₀ (by norm_num) (by omega)
  rw [wrapInt64_of_range _ (by omega) (by omega)]

/-- C1, witness: the two-byte field `[0x01, 0x00]` decodes to 256. -/
theorem parseBit_bigEndian_witness :
    parseBit true ⟨0, some [[0x01, 0x00]], 0, 2, 0⟩ = some 256 := by
  have h := parseBit_bigEndian true ⟨0, some [[0x01, 0x00]], 0, 2, 0⟩ [0x01, 0x00] rfl rfl
    (by decide) (by decide)
  have hv : bigEndianValue [0x01, 0x00] = 256 := by decide
  rw [h, hv]; rfl

/-- C2 (the code departs from the claim): with a signed `char` the fast path for a field of
length 1 returns the single byte `0x80` as `-128`, while the accumulation loop run on the
same field, which masks the byte with `0xff`, gives the unsigned value 128.  The byte `0x05`
decodes to 5 on both paths. -/
theorem parseBit_single_byte_fast_path :
    parseBit true ⟨0, some [[0x80]], 0, 1, 0⟩ = some (-128)
      ∧ parseBitLoop true [0x80] 1 0 0 = some 128
      ∧ bigEndianValue [0x80] = 128
      ∧ parseBit true ⟨0, some [[0x05]], 0, 1, 0⟩ = some 5
      ∧ parseBitLoop true [0x05] 1 0 0 = some 5 := by
  refine ⟨by decide, ?_, by decide, by decide, ?_⟩
  · rw [parseBitLoop]; decide
  · rw [parseBitLoop]; decide

/-- C3, as amended: on a field of 8 bytes `parseBit` returns the unsigned big-endian integer
of the bytes reduced to the two's-complement range of its `int64_t` result: the unsigned value
itself when the most significant byte is below `0x80`, the unsigned value minus `2 ^ 64` (a
negative number) when the most significant byte is `0x80` or more. -/
theorem parseBit_eight_bytes (charSigned : Bool) (st : State) (field : List Byte)
    (hfield : st.field = some field) (hlen : st.length = field.length)
    (h8 : field.length = 8) :
    parseBit charSigned st
      = some (if (field.getD 0 0).val < 128 then (bigEndianValue field : Int)
              else (bigEndianValue field : Int) - 2 ^ 64) := by
  rw [parseBit_loop_value charSigned st field hfield hlen (by omega) (by omega)]
  obtain ⟨h0, hlt⟩ := bigEndianTail_bounds field 7 1 (by omega) (by omega)
  have hstep := bigEndianTail_step field 0 (by omega)
  rw [bigEndianTail_zero, h8] at hstep
  have hb := (field.getD 0 0).isLt
  simp only [Nat.reduceSub, Nat.reduceMul, Nat.reduceAdd] at hstep h0 hlt
  refine congrArg some ?_
  unfold wrapInt64
  split <;> omega

/-- C3, witness: the field `ff 00 00 00 00 00 00 01` decodes to `0xff00000000000001 - 2 ^ 64`. -/
theorem parseBit_eight_bytes_witness :
    parseBit true ⟨0, some [[0xff, 0, 0, 0, 0, 0, 0, 1]], 0, 8, 0⟩
      = some (-72057594037927935) := by
  have h := parseBit_eight_bytes true ⟨0, some [[0xff, 0, 0, 0, 0, 0, 0, 1]], 0, 8, 0⟩
    [0xff, 0, 0, 0, 0, 0, 0, 1] rfl rfl rfl
  have hv : bigEndianValue [0xff, 0, 0, 0, 0, 0, 0, 1] = 18374686479671623681 := by decide
  rw [h, hv]; rfl

/-- C3, counterexample: the 8-byte field `80 00 00 00 00 00 00 00`, whose unsigned big-endian
integer is `2 ^ 63`, is decoded to the negative number `-2 ^ 63`. -/
theorem parseBit_eight_bytes_negative :
    parseBit true ⟨0, some [[0x80, 0, 0, 0, 0, 0, 0, 0]], 0, 8, 0⟩
        = some (-9223372036854775808)
      ∧ bigEndianValue [0x80, 0, 0, 0, 0, 0, 0, 0] = 9223372036854775808
      ∧ ¬ (∃ v : Int, parseBit true ⟨0, some [[0x80, 0, 0, 0, 0, 0, 0, 0]], 0, 8, 0⟩ = some v
            ∧ 0 ≤ v) := by
  have hv : bigEndianValue [0x80, 0, 0, 0, 0, 0, 0, 0] = 9223372036854775808 := by decide
  have h : parseBit true ⟨0, some [[0x80, 0, 0, 0, 0, 0, 0, 0]], 0, 8, 0⟩
      = some (-9223372036854775808) := by
    rw [parseBit_loop_value true ⟨0, some [[0x80, 0, 0, 0, 0, 0, 0, 0]], 0, 8, 0⟩
      [0x80, 0, 0, 0, 0, 0, 0, 0] rfl rfl (by decide) (by decide), hv]
    rfl
  refine ⟨h, hv, ?_⟩
  rintro ⟨v, hv1, hv2⟩
  rw [h] at hv1
  injection hv1 with hv1
  omega

/-- C4: when the first `'.'` of the text is followed by exactly `k ≤ 9` ASCII digits and the
text ends there, `extractNanos` succeeds with the decimal value of the digits multiplied by
`10 ^ (9 - k)`. -/
theorem extractNanos_zero_extends (pre digits : SQLString) (hpre : '.' ∉ pre)
    (hd : ∀ c ∈ digits, '0' ≤ c ∧ c ≤ '9') (hk : digits.length ≤ 9) :
    extractNanos (pre ++ '.' :: digits)
      = Except.ok ((decimalValue digits * 10 ^ (9 - digits.length) : Nat) : Int) := by
  have hbound := decimalFrom_lt digits 0 hd
  have hsplit : 9 = digits.length + (9 - digits.length) := by omega
  have hpow : 10 ^ digits.length * 10 ^ (9 - digits.length) = 10 ^ 9 := by
    rw [← pow_add, ← hsplit]
  have h0 : (0 + 1) * 10 ^ (digits.length + (9 - digits.length)) ≤ 2 ^ 31 := by
    rw [← hsplit]; norm_num
  have h1 : (decimalFrom 0 digits + 1) * 10 ^ (9 - digits.length) ≤ 2 ^ 31 := by
    calc (decimalFrom 0 digits + 1) * 10 ^ (9 - digits.length)
        ≤ ((0 + 1) * 10 ^ digits.length) * 10 ^ (9 - digits.length) :=
          Nat.mul_le_mul_right _ hbound
      _ = 10 ^ 9 := by rw [zero_add, one_mul, hpow]
      _ ≤ 2 ^ 31 := by norm_num
  rw [extractNanos_dot pre digits hpre]
  have hw := nanosWindow_digits (subSecondParseError (pre ++ '.' :: digits)) digits
    (9 - digits.length) 0 [] hd h0
  rw [← hsplit, List.append_nil] at hw
  rw [show ((0 : Int)) = ((0 : Nat) : Int) from rfl, hw,
    nanosWindow_nil _ (9 - digits.length) (decimalFrom 0 digits) h1]
  rfl

/-- C4, witness: `extractNanos("12:00:00.123")` is 123000000. -/
theorem extractNanos_zero_extends_witness :
    extractNanos "12:00:00.123".toList = Except.ok 123000000 :=
  extractNanos_zero_extends "12:00:00".toList "123".toList (by decide) (by decide) (by decide)

/-- C5: when the first `'.'` of the text is followed by at least 9 ASCII digits,
`extractNanos` succeeds with the decimal value of the first 9 of them, whatever follows. -/
theorem extractNanos_truncates (pre digits rest : SQLString) (hpre : '.' ∉ pre)
    (hd : ∀ c ∈ digits, '0' ≤ c ∧ c ≤ '9') (h9 : digits.length = 9) :
    extractNanos (pre ++ '.' :: (digits ++ rest))
      = Except.ok ((decimalValue digits : Nat) : Int) := by
  have h0 : (0 + 1) * 10 ^ (digits.length + 0) ≤ 2 ^ 31 := by
    rw [h9]; norm_num
  rw [extractNanos_dot pre (digits ++ rest) hpre]
  have hw := nanosWindow_digits (subSecondParseError (pre ++ '.' :: (digits ++ rest))) digits
    0 0 rest hd h0
  rw [h9] at hw
  rw [show ((0 : Int)) = ((0 : Nat) : Int) from rfl, hw]
  rfl

/-- C5, witness: `extractNanos("12:00:00.1234567890")` is 123456789. -/
theorem extractNanos_truncates_witness :
    extractNanos "12:00:00.1234567890".toList = Except.ok 123456789 :=
  extractNanos_truncates "12:00:00".toList "123456789".toList "0".toList (by decide)
    (by decide) (by decide)

/-- C6: `extractNanos` throws its exception exactly on the texts that contain a `'.'` whose
first occurrence, at index `p`, is followed by a character that is not an ASCII digit at some
index `i` with `p < i ≤ p + 9` inside the text; on every other text it returns a value.  In
particular `extractNanos("12:00:00.abc")` throws. -/
theorem extractNanos_fails_iff :
    (∀ text : SQLString,
        ((∃ e, extractNanos text = Except.error e) ↔ MalformedFraction text)
        ∧ (MalformedFraction text → extractNanos text = Except.error (subSecondParseError text))
        ∧ (¬ MalformedFraction text → ∃ v, extractNanos text = Except.ok v))
      ∧ extractNanos "12:00:00.abc".toList
          = Except.error (subSecondParseError "12:00:00.abc".toList) := by
  have hiff : ∀ text : SQLString,
      (∃ e, extractNanos text = Except.error e) ↔ MalformedFraction text := by
    intro text
    cases hfind : find_first_of text '.' with
    | none =>
      have hval : extractNanos text = Except.ok 0 := by unfold extractNanos; rw [hfind]
      rw [hval]
      constructor
      · rintro ⟨e, he⟩; cases he
      · rintro ⟨p, hp, _⟩
        rw [(find_first_of_eq_some_iff text '.' p).mpr hp] at hfind
        cases hfind
    | some p =>
      rw [extractNanos_of_find text p hfind, nanosWindow_error_iff]
      constructor
      · rintro ⟨j, hj, c, hc, hnc⟩
        refine ⟨p, (find_first_of_eq_some_iff text '.' p).mp hfind, p + 1 + j, by omega,
          by omega, c, ?_, hnc⟩
        rw [← hc, List.getElem?_drop]
      · rintro ⟨q, hq, i, hi1, hi2, c, hc, hnc⟩
        have hqp : q = p := by
          have := (find_first_of_eq_some_iff text '.' q).mpr hq
          rw [hfind] at this
          exact (Option.some.inj this).symm
        subst hqp
        refine ⟨i - (q + 1), by omega, c, ?_, hnc⟩
        rw [List.getElem?_drop, ← hc]
        congr 1
        omega
  refine ⟨fun text => ⟨hiff text, ?_, ?_⟩, ?_⟩
  · intro hm
    obtain ⟨e, he⟩ := (hiff text).mpr hm
    obtain ⟨p, hp, _⟩ := hm
    have hfind := (find_first_of_eq_some_iff text '.' p).mpr hp
    have hw := extractNanos_of_find text p hfind
    rw [he]
    rw [hw] at he
    rw [nanosWindow_error_eq _ _ _ _ e he]
  · intro hm
    cases hres : extractNanos text with
    | error e => exact absurd ((hiff text).mp ⟨e, hres⟩) hm
    | ok v => exact ⟨v, rfl⟩
  · simp [extractNanos, find_first_of, extractNanosLoop]

/-- C7: on a text without `'.'`, `extractNanos` returns 0. -/
theorem extractNanos_no_dot (text : SQLString) (h : '.' ∉ text) :
    extractNanos text = Except.ok 0 := by
  unfold extractNanos
  rw [find_first_of_eq_none text '.' h]

/-- C7, witness: `extractNanos("12:00:00")` is 0. -/
theorem extractNanos_no_dot_witness : extractNanos "12:00:00".toList = Except.ok 0 :=
  extractNanos_no_dot "12:00:00".toList (by decide)

/-- C8: for a zero-fill column of display size `d` (a `uint32_t`) and a value shorter than
`d`, `zeroFillingIfNeeded` returns `d - length(value)` characters `'0'` followed by the value:
the result has length `d` and ends with the value.  This holds with a 64-bit and with a 32-bit
`size_t`. -/
theorem zeroFillingIfNeeded_pads (size64 : Bool) (value : SQLString) (col : ColumnDefinition)
    (hzero : col.zeroFill = true) (hshort : value.length < col.displaySize)
    (hd : col.displaySize < 2 ^ 32) :
    zeroFillingIfNeeded size64 value col
        = List.replicate (col.displaySize - value.length) '0' ++ value
      ∧ (zeroFillingIfNeeded size64 value col).length = col.displaySize
      ∧ value <:+ zeroFillingIfNeeded size64 value col := by
  have hz : wrapInt64 (((col.displaySize : Int) - (value.length : Int)) % sizeModulus size64)
      = ((col.displaySize - value.length : Nat) : Int) := by
    unfold wrapInt64 sizeModulus
    split <;> omega
  have hres := zeroFillingIfNeeded_of_count size64 value col
    (col.displaySize - value.length) hzero hz
  refine ⟨hres, ?_, ?_⟩
  · rw [hres, List.length_append, List.length_replicate]; omega
  · rw [hres]; exact List.suffix_append _ _

/-- C8, witness: the value `"42"` with display size 5 gives `"00042"`, with a 64-bit and with
a 32-bit `size_t`. -/
theorem zeroFillingIfNeeded_pads_witness :
    zeroFillingIfNeeded true "42".toList ⟨"c".toList, true, 5⟩ = "00042".toList
      ∧ zeroFillingIfNeeded false "42".toList ⟨"c".toList, true, 5⟩ = "00042".toList :=
  ⟨(zeroFillingIfNeeded_pads true "42".toList ⟨"c".toList, true, 5⟩ rfl (by decide)
      (by decide)).1,
    (zeroFillingIfNeeded_pads false "42".toList ⟨"c".toList, true, 5⟩ rfl (by decide)
      (by decide)).1⟩

/-- C9 (the code departs from the claim): with a 32-bit `size_t`, the value `"12345"` on a
zero-fill column of display size 3 is not returned unchanged.  The difference `3 - 5` wraps to
4294967294, a positive `int64_t`, and that many `'0'` are put before the value.  With a 64-bit
`size_t` the same call returns `"12345"`, and a column that is not zero-fill returns it with
either width. -/
theorem zeroFillingIfNeeded_long_value_32bit :
    zeroFillingIfNeeded false "12345".toList ⟨"c".toList, true, 3⟩
        = List.replicate 4294967294 '0' ++ "12345".toList
      ∧ (zeroFillingIfNeeded false "12345".toList ⟨"c".toList, true, 3⟩).length = 4294967299
      ∧ zeroFillingIfNeeded false "12345".toList ⟨"c".toList, true, 3⟩ ≠ "12345".toList
      ∧ zeroFillingIfNeeded true "12345".toList ⟨"c".toList, true, 3⟩ = "12345".toList
      ∧ zeroFillingIfNeeded false "12345".toList ⟨"c".toList, false, 3⟩ = "12345".toList := by
  have hres : zeroFillingIfNeeded false "12345".toList ⟨"c".toList, true, 3⟩
      = List.replicate 4294967294 '0' ++ "12345".toList :=
    zeroFillingIfNeeded_of_count false "12345".toList ⟨"c".toList, true, 3⟩ 4294967294 rfl
      (by decide)
  have hlen : (zeroFillingIfNeeded false "12345".toList ⟨"c".toList, true, 3⟩).length
      = 4294967299 := by
    rw [hres, List.length_append, List.length_replicate]
    rfl
  refine ⟨hres, hlen, ?_, ?_, ?_⟩
  · intro heq
    rw [heq] at hlen
    exact absurd hlen (by decide)
  · exact zeroFillingIfNeeded_unchanged true "12345".toList ⟨"c".toList, true, 3⟩
      (Or.inr ⟨rfl, by decide, by decide⟩)
  · exact zeroFillingIfNeeded_unchanged false "12345".toList ⟨"c".toList, false, 3⟩
      (Or.inl rfl)

/-- C10: the integer `rangeCheck` throws exactly when `value < minValue` or
`value > maxValue`, for all bounds (also `minValue > maxValue`) and every column, and returns
normally otherwise.  In particular the check of 130 against `-128 .. 127` throws and that of
100 returns. -/
theorem rangeCheck_fails_iff :
    (∀ (className : SQLString) (minValue maxValue value : Int) (col : ColumnDefinition),
        ((∃ e, rangeCheck className minValue maxValue value col = Except.error e)
            ↔ (value < minValue ∨ value > maxValue))
        ∧ (¬ (value < minValue ∨ value > maxValue)
            → rangeCheck className minValue maxValue value col = Except.ok ()))
      ∧ (∀ col : ColumnDefinition,
          (∃ e, rangeCheck "TINYINT".toList (-128) 127 130 col = Except.error e)
          ∧ rangeCheck "TINYINT".toList (-128) 127 100 col = Except.ok ()) := by
  have hmain : ∀ (className : SQLString) (minValue maxValue value : Int)
      (col : ColumnDefinition),
      ((∃ e, rangeCheck className minValue maxValue value col = Except.error e)
          ↔ (value < minValue ∨ value > maxValue))
      ∧ (¬ (value < minValue ∨ value > maxValue)
          → rangeCheck className minValue maxValue value col = Except.ok ()) := by
    intro className minValue maxValue value col
    unfold rangeCheck
    by_cases h : value < minValue ∨ value > maxValue
    · rw [if_pos h]
      exact ⟨⟨fun _ => h, fun _ => ⟨_, rfl⟩⟩, fun hn => absurd h hn⟩
    · rw [if_neg h]
      refine ⟨⟨?_, fun hc => absurd hc h⟩, fun _ => rfl⟩
      rintro ⟨e, he⟩
      cases he
  refine ⟨hmain, fun col => ⟨?_, ?_⟩⟩
  · exact ((hmain "TINYINT".toList (-128) 127 130 col).1).mpr (by decide)
  · exact (hmain "TINYINT".toList (-128) 127 100 col).2 (by decide)

/-! ## Lemmas for the range error, the field length and the patterns -/

theorem parseBit_short_field (charSigned : Bool) (st : State) (field : List Byte)
    (hfield : st.field = some field) (hlen : st.length = field.length)
    (h2 : 2 ≤ field.length) (h7 : field.length ≤ 7) :
    parseBit charSigned st = some (bigEndianValue field : Int) := by
  rw [parseBit_loop_value charSigned st field hfield hlen h2 (by omega)]
  obtain ⟨h0, hlt⟩ := bigEndianTail_bounds field field.length 0 (by omega) rfl
  rw [bigEndianTail_zero] at h0 hlt
  have hpow : (2 : Int) ^ (8 * field.length) ≤ 2 ^ 56 :=
    pow_le_pow_right₀ (by norm_num) (by omega)
  rw [wrapInt64_of_range _ (by omega) (by omega)]

/-- A text that has the shape of a pattern followed by more elements has the shape of the
pattern. -/
theorem matchesPrefix_of_append (p q : List Item) :
    ∀ s : List Char, matchesPrefix (p ++ q) s = true → matchesPrefix p s = true := by
  induction p with
  | nil => intro s _; cases s <;> rfl
  | cons item p ih =>
    intro s h
    cases item with
    | one a =>
      cases s with
      | nil => simp [matchesPrefix] at h
      | cons x s =>
        simp only [List.cons_append, matchesPrefix, Bool.and_eq_true] at h ⊢
        exact ⟨h.1, ih s h.2⟩
    | opt a =>
      cases s with
      | nil =>
        simp only [List.cons_append, matchesPrefix] at h ⊢
        exact ih [] h
      | cons x s =>
        simp only [List.cons_append, matchesPrefix, Bool.or_eq_true, Bool.and_eq_true] at h ⊢
        rcases h with h | h
        · exact Or.inl ⟨h.1, ih s h.2⟩
        · exact Or.inr (ih (x :: s) h)

/-! ## Theorems of the claims on the range error, the field length and the flags -/

/-- C11: when the integer `rangeCheck` throws, the exception has SQL state `"22003"`, vendor
code 1264 and the message `"Out of range value for column '" + name + "' : value " +
decimal value + " is not in " + className + " range"`, which contains the column name, the
text of the value and the type name. -/
theorem rangeCheck_error_contents (className : SQLString) (minValue maxValue value : Int)
    (col : ColumnDefinition) (e : SQLException)
    (h : rangeCheck className minValue maxValue value col = Except.error e) :
    e.sqlState = some "22003".toList ∧ e.errorCode = some 1264
      ∧ e.message = "Out of range value for column '".toList ++ col.name
          ++ "' : value ".toList ++ to_string value ++ " is not in ".toList ++ className
          ++ " range".toList
      ∧ col.name <:+: e.message ∧ to_string value <:+: e.message
      ∧ className <:+: e.message := by
  unfold rangeCheck at h
  split at h
  · injection h with h
    subst h
    refine ⟨rfl, rfl, rfl, ?_, ?_, ?_⟩
    · exact ⟨"Out of range value for column '".toList,
        "' : value ".toList ++ to_string value ++ " is not in ".toList ++ className
          ++ " range".toList, by simp [outOfRangeError]⟩
    · exact ⟨"Out of range value for column '".toList ++ col.name ++ "' : value ".toList,
        " is not in ".toList ++ className ++ " range".toList, by simp [outOfRangeError]⟩
    · exact ⟨"Out of range value for column '".toList ++ col.name ++ "' : value ".toList
          ++ to_string value ++ " is not in ".toList,
        " range".toList, by simp [outOfRangeError]⟩
  · cases h

/-- C11, witness: the check of 130 against `-128 .. 127` for the column `c1` throws with
state `22003`, code 1264 and the message naming `c1`, `130` and `TINYINT`. -/
theorem rangeCheck_error_contents_witness :
    (outOfRangeError "TINYINT".toList 130 ⟨"c1".toList, false, 4⟩).sqlState
        = some "22003".toList
      ∧ (outOfRangeError "TINYINT".toList 130 ⟨"c1".toList, false, 4⟩).errorCode = some 1264
      ∧ (outOfRangeError "TINYINT".toList 130 ⟨"c1".toList, false, 4⟩).message
        = "Out of range value for column 'c1' : value 130 is not in TINYINT range".toList := by
  have h := rangeCheck_error_contents "TINYINT".toList (-128) 127 130
    ⟨"c1".toList, false, 4⟩ (outOfRangeError "TINYINT".toList 130 ⟨"c1".toList, false, 4⟩)
    (by simp [rangeCheck])
  exact ⟨h.1, h.2.1, h.2.2.1.trans (by decide)⟩

/-- C12: for a non-negative `maxFieldSize` (an `int32_t`), `getLengthMaxFieldSize` returns
`min(maxFieldSize, length)` when `maxFieldSize != 0` and `length` when `maxFieldSize == 0`. -/
theorem getLengthMaxFieldSize_min (st : State) (h0 : 0 ≤ st.maxFieldSize)
    (h31 : st.maxFieldSize < 2 ^ 31) :
    (st.maxFieldSize ≠ 0 → getLengthMaxFieldSize st = min st.maxFieldSize.toNat st.length)
      ∧ (st.maxFieldSize = 0 → getLengthMaxFieldSize st = st.length) := by
  unfold getLengthMaxFieldSize
  constructor
  · intro hne
    split <;> omega
  · intro he
    split <;> omega

/-- C12, witness: `maxFieldSize = 3` with a 10-byte field gives 3, `maxFieldSize = 0` gives
10. -/
theorem getLengthMaxFieldSize_min_witness :
    getLengthMaxFieldSize ⟨3, none, 0, 10, 0⟩ = 3
      ∧ getLengthMaxFieldSize ⟨0, none, 0, 10, 0⟩ = 10 :=
  ⟨(getLengthMaxFieldSize_min ⟨3, none, 0, 10, 0⟩ (by decide) (by decide)).1 (by decide),
    (getLengthMaxFieldSize_min ⟨0, none, 0, 10, 0⟩ (by decide) (by decide)).2 rfl⟩

/-- C13, as amended: `parseBit` does not apply the truncation ceiling.  Its result is the
same for every value of `maxFieldSize`, and on a field of 2 to 7 bytes whose recorded length
is its size it is the big-endian value of all the bytes of the field, whatever
`maxFieldSize` is. -/
theorem parseBit_ignores_maxFieldSize (charSigned : Bool) (st : State) (m : Int) :
    parseBit charSigned { st with maxFieldSize := m } = parseBit charSigned st
      ∧ ∀ field : List Byte, st.field = some field → st.length = field.length →
          2 ≤ field.length → field.length ≤ 7 →
          parseBit charSigned { st with maxFieldSize := m }
            = some (bigEndianValue field : Int) := by
  refine ⟨rfl, fun field hfield hlen h2 h7 => ?_⟩
  exact parseBit_short_field charSigned { st with maxFieldSize := m } field hfield hlen h2 h7

/-- C13, witness: with `maxFieldSize = 1` the 3-byte field `01 02 03` decodes to `0x010203`. -/
theorem parseBit_ignores_maxFieldSize_witness :
    parseBit true ⟨1, some [[0x01, 0x02, 0x03]], 0, 3, 0⟩ = some 66051 := by
  have h := (parseBit_ignores_maxFieldSize true ⟨0, some [[0x01, 0x02, 0x03]], 0, 3, 0⟩ 1).2
    [0x01, 0x02, 0x03] rfl rfl (by decide) (by decide)
  have hv : bigEndianValue [0x01, 0x02, 0x03] = 66051 := by decide
  rw [hv] at h
  exact h

/-- C13, counterexample: with `maxFieldSize = 1` and the 2-byte field `01 00` the effective
length is 1 and the first byte alone has the value 1, but `parseBit` returns 256. -/
theorem parseBit_reads_beyond_maxFieldSize :
    getLengthMaxFieldSize ⟨1, some [[0x01, 0x00]], 0, 2, 0⟩ = 1
      ∧ bigEndianValue (List.take 1 [0x01, 0x00]) = 1
      ∧ parseBit true ⟨1, some [[0x01, 0x00]], 0, 2, 0⟩ = some 256
      ∧ parseBit false ⟨1, some [[0x01, 0x00]], 0, 2, 0⟩ = some 256 := by
  have hv : bigEndianValue [0x01, 0x00] = 256 := by decide
  refine ⟨by decide, by decide, ?_, ?_⟩
  · rw [parseBit_short_field true ⟨1, some [[0x01, 0x00]], 0, 2, 0⟩ [0x01, 0x00] rfl rfl
      (by decide) (by decide), hv]
    rfl
  · rw [parseBit_short_field false ⟨1, some [[0x01, 0x00]], 0, 2, 0⟩ [0x01, 0x00] rfl rfl
      (by decide) (by decide), hv]
    rfl

/-- C14: when the status flag is one of `BIT_LAST_FIELD_NOT_NULL`, `BIT_LAST_FIELD_NULL` and
`BIT_LAST_ZERO_DATE`, `wasNull` returns true exactly when it is `BIT_LAST_FIELD_NULL` or
`BIT_LAST_ZERO_DATE`. -/
theorem wasNull_iff (st : State)
    (h : st.lastValueNull = BIT_LAST_FIELD_NOT_NULL ∨ st.lastValueNull = BIT_LAST_FIELD_NULL
      ∨ st.lastValueNull = BIT_LAST_ZERO_DATE) :
    wasNull st = true
      ↔ (st.lastValueNull = BIT_LAST_FIELD_NULL ∨ st.lastValueNull = BIT_LAST_ZERO_DATE) := by
  unfold wasNull
  rcases h with h | h | h <;> rw [h] <;> decide

/-- C14, witness: `wasNull` is false for the flag `BIT_LAST_FIELD_NOT_NULL` and true for
`BIT_LAST_FIELD_NULL` and for `BIT_LAST_ZERO_DATE`. -/
theorem wasNull_iff_witness :
    wasNull ⟨0, none, 0, 0, BIT_LAST_FIELD_NOT_NULL⟩ = false
      ∧ wasNull ⟨0, none, 0, 0, BIT_LAST_FIELD_NULL⟩ = true
      ∧ wasNull ⟨0, none, 0, 0, BIT_LAST_ZERO_DATE⟩ = true := by
  refine ⟨?_, ?_, ?_⟩
  · have h := wasNull_iff ⟨0, none, 0, 0, BIT_LAST_FIELD_NOT_NULL⟩ (Or.inl rfl)
    cases hw : wasNull ⟨0, none, 0, 0, BIT_LAST_FIELD_NOT_NULL⟩ with
    | false => rfl
    | true => exact absurd (h.mp hw) (by decide)
  · exact (wasNull_iff ⟨0, none, 0, 0, BIT_LAST_FIELD_NULL⟩ (Or.inr (Or.inl rfl))).mpr
      (Or.inl rfl)
  · exact (wasNull_iff ⟨0, none, 0, 0, BIT_LAST_ZERO_DATE⟩ (Or.inr (Or.inr rfl))).mpr
      (Or.inr rfl)

/-- C15: when the status flag is one of the three states, `lastValueWasNull` returns true
exactly when it is `BIT_LAST_FIELD_NULL`; for `BIT_LAST_ZERO_DATE` it returns false while
`wasNull` returns true. -/
theorem lastValueWasNull_iff (st : State)
    (h : st.lastValueNull = BIT_LAST_FIELD_NOT_NULL ∨ st.lastValueNull = BIT_LAST_FIELD_NULL
      ∨ st.lastValueNull = BIT_LAST_ZERO_DATE) :
    (lastValueWasNull st = true ↔ st.lastValueNull = BIT_LAST_FIELD_NULL)
      ∧ (st.lastValueNull = BIT_LAST_ZERO_DATE →
          lastValueWasNull st = false ∧ wasNull st = true) := by
  unfold lastValueWasNull wasNull
  rcases h with h | h | h <;> rw [h] <;> decide

/-- C15, witness: for the flag `BIT_LAST_ZERO_DATE`, `lastValueWasNull` is false and
`wasNull` is true. -/
theorem lastValueWasNull_iff_witness :
    lastValueWasNull ⟨0, none, 0, 0, BIT_LAST_ZERO_DATE⟩ = false
      ∧ wasNull ⟨0, none, 0, 0, BIT_LAST_ZERO_DATE⟩ = true :=
  (lastValueWasNull_iff ⟨0, none, 0, 0, BIT_LAST_ZERO_DATE⟩ (Or.inr (Or.inr rfl))).2 rfl

/-- C16: after `resetRow(fields)` the row buffer is `fields`, whatever it was before, and
`maxFieldSize` (hence `getMaxFieldSize`), the field length, the field position and the status
flag are unchanged. -/
theorem resetRow_frame (st : State) (fields : List (List Byte)) :
    (resetRow st fields).buf = some fields
      ∧ (resetRow st fields).maxFieldSize = st.maxFieldSize
      ∧ getMaxFieldSize (resetRow st fields) = getMaxFieldSize st
      ∧ (resetRow st fields).length = st.length
      ∧ (resetRow st fields).pos = st.pos
      ∧ (resetRow st fields).lastValueNull = st.lastValueNull :=
  ⟨rfl, rfl, rfl, rfl, rfl, rfl⟩

/-- C17: `getInternalTinyInt`, `getInternalSmallInt` and `getInternalMediumInt` each give,
for every `getInternalInt`, decoder state and column, exactly the outcome of `getInternalInt`. -/
theorem getInternal_width_delegates
    (getInternalInt : State → ColumnDefinition → IntResult) (st : State)
    (columnInfo : ColumnDefinition) :
    getInternalTinyInt getInternalInt st columnInfo = getInternalInt st columnInfo
      ∧ getInternalSmallInt getInternalInt st columnInfo = getInternalInt st columnInfo
      ∧ getInternalMediumInt getInternalInt st columnInfo = getInternalInt st columnInfo :=
  ⟨rfl, rfl, rfl⟩

/-- C19: for every `maxFieldSize`, negative values included, `getLengthMaxFieldSize` is at
most the raw field length. -/
theorem getLengthMaxFieldSize_le (st : State) : getLengthMaxFieldSize st ≤ st.length := by
  unfold getLengthMaxFieldSize
  split <;> omega

/-! ## Lemmas on the range of extractNanos -/

theorem accumulate_bound (n d k B : Nat) (hd : d ≤ 9) (hn : (n + 1) * 10 ^ (k + 1) ≤ B) :
    (10 * n + d + 1) * 10 ^ k ≤ B ∧ 10 * n + d + 1 ≤ B := by
  have hpos : 1 ≤ 10 ^ k := Nat.one_le_pow _ _ (by norm_num)
  have h1 : (10 * n + d + 1) * 10 ^ k ≤ B := by
    calc (10 * n + d + 1) * 10 ^ k ≤ (10 * n + 10) * 10 ^ k :=
          Nat.mul_le_mul_right _ (by omega)
      _ = (n + 1) * 10 ^ (k + 1) := by rw [pow_succ]; ring
      _ ≤ B := hn
  refine ⟨h1, ?_⟩
  calc 10 * n + d + 1 = (10 * n + d + 1) * 1 := by ring
    _ ≤ (10 * n + d + 1) * 10 ^ k := Nat.mul_le_mul_left _ hpos
    _ ≤ B := h1

/-- While the accumulator stays below `10 ^ 9`, the reduction to `int32_t` changes nothing:
the loop computes the exact value. -/
theorem nanosWindow_eq_exact (err : SQLException) (k : Nat) :
    ∀ (rest : List Char) (n : Nat), (n + 1) * 10 ^ k ≤ 10 ^ 9 →
      nanosWindow err k rest (n : Int) = nanosExact err k rest (n : Int) := by
  induction k with
  | zero => intro rest n _; rw [nanosWindow, nanosExact]
  | succ k ih =>
    intro rest n hn
    cases rest with
    | nil =>
      obtain ⟨h1, h2⟩ := accumulate_bound n 0 k (10 ^ 9) (by omega) hn
      have hw : wrapInt32 ((n : Int) * 10 + 0) = ((10 * n + 0 : Nat) : Int) := by
        rw [wrapInt32_of_range _ (by omega) (by omega)]
        omega
      have he : (n : Int) * 10 + 0 = ((10 * n + 0 : Nat) : Int) := by omega
      rw [nanosWindow, nanosExact, hw, he]
      exact ih [] (10 * n + 0) h1
    | cons c cs =>
      rw [nanosWindow, nanosExact]
      by_cases hc : c < '0' ∨ c > '9'
      · rw [if_pos hc, if_pos hc]
      · rw [if_neg hc, if_neg hc]
        have hdig : '0' ≤ c ∧ c ≤ '9' := by
          by_contra hcon; exact hc ((not_digit_iff c).mpr hcon)
        obtain ⟨hc0, hc9⟩ := digit_toNat c hdig
        have h48 : '0'.toNat = 48 := rfl
        obtain ⟨h1, h2⟩ := accumulate_bound n (c.toNat - 48) k (10 ^ 9) (by omega) hn
        have he : (n : Int) * 10 + ((c.toNat : Int) - ('0'.toNat : Int))
            = ((10 * n + (c.toNat - 48) : Nat) : Int) := by
          rw [h48]; omega
        have hw : wrapInt32 ((n : Int) * 10 + ((c.toNat : Int) - ('0'.toNat : Int)))
            = ((10 * n + (c.toNat - 48) : Nat) : Int) := by
          rw [he, wrapInt32_of_range _ (by omega) (by omega)]
        rw [hw, he]
        exact ih cs (10 * n + (c.toNat - 48)) h1

/-- The exact value of a window of `k` characters entered with the accumulator `n` lies
between `n * 10 ^ k` and `(n + 1) * 10 ^ k - 1`. -/
theorem nanosExact_bounds (err : SQLException) (k : Nat) :
    ∀ (rest : List Char) (n : Nat) (v : Int),
      nanosExact err k rest (n : Int) = Except.ok v →
      ((n * 10 ^ k : Nat) : Int) ≤ v ∧ v < (((n + 1) * 10 ^ k : Nat) : Int) := by
  induction k with
  | zero =>
    intro rest n v h
    rw [nanosExact] at h
    injection h with h
    subst h
    simp
  | succ k ih =>
    intro rest n v h
    have hlow : ∀ d : Nat, n * 10 ^ (k + 1) ≤ (10 * n + d) * 10 ^ k := by
      intro d
      calc n * 10 ^ (k + 1) = (10 * n) * 10 ^ k := by rw [pow_succ]; ring
        _ ≤ (10 * n + d) * 10 ^ k := Nat.mul_le_mul_right _ (by omega)
    have hhigh : ∀ d : Nat, d ≤ 9 → (10 * n + d + 1) * 10 ^ k ≤ (n + 1) * 10 ^ (k + 1) := by
      intro d hd
      calc (10 * n + d + 1) * 10 ^ k ≤ (10 * n + 10) * 10 ^ k :=
            Nat.mul_le_mul_right _ (by omega)
        _ = (n + 1) * 10 ^ (k + 1) := by rw [pow_succ]; ring
    cases rest with
    | nil =>
      have he : (n : Int) * 10 + 0 = ((10 * n + 0 : Nat) : Int) := by omega
      rw [nanosExact, he] at h
      obtain ⟨hl, hu⟩ := ih [] (10 * n + 0) v h
      have h1 : ((n * 10 ^ (k + 1) : Nat) : Int) ≤ (((10 * n + 0) * 10 ^ k : Nat) : Int) :=
        Int.ofNat_le.mpr (hlow 0)
      have h2 : (((10 * n + 0 + 1) * 10 ^ k : Nat) : Int)
          ≤ (((n + 1) * 10 ^ (k + 1) : Nat) : Int) :=
        Int.ofNat_le.mpr (hhigh 0 (by omega))
      exact ⟨le_trans h1 hl, lt_of_lt_of_le hu h2⟩
    | cons c cs =>
      rw [nanosExact] at h
      by_cases hc : c < '0' ∨ c > '9'
      · rw [if_pos hc] at h; cases h
      · rw [if_neg hc] at h
        have hdig : '0' ≤ c ∧ c ≤ '9' := by
          by_contra hcon; exact hc ((not_digit_iff c).mpr hcon)
        obtain ⟨hc0, hc9⟩ := digit_toNat c hdig
        have h48 : '0'.toNat = 48 := rfl
        have he : (n : Int) * 10 + ((c.toNat : Int) - ('0'.toNat : Int))
            = ((10 * n + (c.toNat - 48) : Nat) : Int) := by
          rw [h48]; omega
        rw [he] at h
        obtain ⟨hl, hu⟩ := ih cs (10 * n + (c.toNat - 48)) v h
        have h1 : ((n * 10 ^ (k + 1) : Nat) : Int)
            ≤ (((10 * n + (c.toNat - 48)) * 10 ^ k : Nat) : Int) :=
          Int.ofNat_le.mpr (hlow _)
        have h2 : (((10 * n + (c.toNat - 48) + 1) * 10 ^ k : Nat) : Int)
            ≤ (((n + 1) * 10 ^ (k + 1) : Nat) : Int) :=
          Int.ofNat_le.mpr (hhigh _ (by omega))
        exact ⟨le_trans h1 hl, lt_of_lt_of_le hu h2⟩

/-! ## Theorems of the claims on the range of extractNanos and on the patterns -/

/-- C18: when `extractNanos` succeeds its result is between 0 and 999999999, and it is the
value of the same accumulation done in the integers: no step of the `int32_t` accumulation
`nanos = nanos * 10 + digit` overflows. -/
theorem extractNanos_range (text : SQLString) (v : Int)
    (h : extractNanos text = Except.ok v) :
    0 ≤ v ∧ v ≤ 999999999 ∧ extractNanosExact text = Except.ok v := by
  cases hfind : find_first_of text '.' with
  | none =>
    have hval : extractNanos text = Except.ok 0 := by unfold extractNanos; rw [hfind]
    have hex : extractNanosExact text = Except.ok 0 := by
      unfold extractNanosExact; rw [hfind]
    rw [hval] at h
    injection h with h
    subst h
    exact ⟨le_refl _, by norm_num, hex⟩
  | some p =>
    have hw := extractNanos_of_find text p hfind
    have hex : extractNanosExact text
        = nanosExact (subSecondParseError text) 9 (text.drop (p + 1)) 0 := by
      unfold extractNanosExact; rw [hfind]
    have heq := nanosWindow_eq_exact (subSecondParseError text) 9 (text.drop (p + 1)) 0
      (by norm_num)
    rw [Nat.cast_zero] at heq
    rw [hw, heq] at h
    obtain ⟨hl, hu⟩ := nanosExact_bounds (subSecondParseError text) 9 (text.drop (p + 1)) 0 v
      (by rw [Nat.cast_zero]; exact h)
    rw [hex]
    refine ⟨?_, ?_, h⟩
    · simpa using hl
    · have : (((0 + 1) * 10 ^ 9 : Nat) : Int) = 1000000000 := by norm_num
      rw [this] at hu
      omega

/-- C18, witness: `extractNanos("1.999999999")` is 999999999, the largest result. -/
theorem extractNanos_range_witness :
    extractNanos "1.999999999".toList = Except.ok 999999999
      ∧ extractNanosExact "1.999999999".toList = Except.ok 999999999 := by
  have hv : extractNanos "1.999999999".toList = Except.ok 999999999 := by
    simp [extractNanos, find_first_of, extractNanosLoop, wrapInt32]
  exact ⟨hv, (extractNanos_range "1.999999999".toList 999999999 hv).2.2⟩

/-- C20: with the patterns anchored at the start only, every text accepted by
`timestampRegex` is accepted by `dateRegex`; the converse fails, a bare date being accepted by
`dateRegex` and not by `timestampRegex`. -/
theorem timestampRegex_implies_dateRegex :
    (∀ text : List Char, matchesPrefix timestampRegex text = true →
        matchesPrefix dateRegex text = true)
      ∧ matchesPrefix dateRegex "2020-01-02".toList = true
      ∧ matchesPrefix timestampRegex "2020-01-02".toList = false := by
  refine ⟨fun text h => ?_, by decide, by decide⟩
  have hsplit : timestampRegex = dateRegex
      ++ ([Item.one (Atom.lit ' ')] ++ times 2 Atom.digit ++ [Item.one (Atom.lit ':')]
        ++ times 2 Atom.digit ++ [Item.one (Atom.lit ':')] ++ times 2 Atom.digit
        ++ [Item.opt (Atom.lit '.')]) := by
    decide
  rw [hsplit] at h
  exact matchesPrefix_of_append _ _ text h

/-- C20, witness: the timestamp `2020-01-02 03:04:05.6` is accepted by `timestampRegex`
and by `dateRegex`. -/
theorem timestampRegex_implies_dateRegex_witness :
    matchesPrefix timestampRegex "2020-01-02 03:04:05.6".toList = true
      ∧ matchesPrefix dateRegex "2020-01-02 03:04:05.6".toList = true :=
  ⟨by decide,
    timestampRegex_implies_dateRegex.1 "2020-01-02 03:04:05.6".toList (by decide)⟩

end RowProtocol
